import Mathlib

/-!
# CashFlowPro — Balance Ledger & Settlement Engine: verification development

Shallow embedding of the balance-ledger core of the CashFlowPro repository
(Cloudflare Workers + D1/SQLite backend):

* `src/routes/expenses.ts` — expense create / update / delete and the
  `updateBalance` helper (the `adjust` primitive of the spec);
* `src/routes/settlements.ts` — settlement create / confirm / reject / delete
  routes over the `settlements` and `balances` tables;
* `src/routes/groups.ts` — the `simplifyDebts` greedy debt simplifier;
* the `SplitCostDurableObject` realtime hub (WebSocket sessions, broadcast).

Monetary amounts are embedded as exact rationals (`ℚ`); decimal literals of the
source are read as exact decimal fractions.  The `balances` table is embedded
as an insertion-ordered list of rows.  Two SQLite facts shape the embedding and
are reflected faithfully below:

* the table has `UNIQUE(user_id, friend_id, group_id)` with `group_id`
  nullable.  SQLite treats NULLs as distinct in a unique index, so the
  `INSERT ... ON CONFLICT(user_id, friend_id, group_id) DO UPDATE` statements
  of `updateBalance` conflict (and accumulate into the existing row) only when
  `group_id` is non-NULL; an upsert with `group_id = NULL` never conflicts and
  always inserts a fresh row.  All read paths of the repository aggregate with
  `SUM(amount)` / `reduce`, so the observable "entry" of a (owner,
  counterparty, scope) key is the *sum* of its rows — `entrySum` below.
* the settlement-confirm route uses plain `UPDATE ... WHERE ...` statements
  (no upsert): they add a delta to *every* row matching the pair and scope and
  create nothing.
-/

namespace CashFlowPro

/-- A row of the `balances` table (columns that the ledger logic reads:
`user_id`, `friend_id`, `group_id`, `amount`; `id`, `currency` and
`last_updated` do not influence any balance computation and are omitted). -/
structure BalanceRow where
  user_id : String
  friend_id : String
  group_id : Option String
  amount : ℚ
deriving DecidableEq

/-- The `balances` table: rows in insertion order. -/
abbrev DB := List BalanceRow

/-- Row matches the (owner, counterparty, scope) key; `group_id = g` with the
SQL semantics used by the routes (`g IS NULL AND group_id IS NULL` for the
aggregate scope). -/
def rowKey (r : BalanceRow) (u f : String) (g : Option String) : Prop :=
  r.user_id = u ∧ r.friend_id = f ∧ r.group_id = g

instance (r : BalanceRow) (u f : String) (g : Option String) :
    Decidable (rowKey r u f g) :=
  inferInstanceAs (Decidable (r.user_id = u ∧ r.friend_id = f ∧ r.group_id = g))

/-- The observable ledger entry of a key: the sum of the amounts of all rows
with that key (this is what every read path of the repository computes, via
`SUM(b.amount) ... GROUP BY` or a `reduce`). -/
def entrySum : DB → String → String → Option String → ℚ
  | [], _, _, _ => 0
  | r :: t, u, f, g =>
      (if rowKey r u f g then r.amount else 0) + entrySum t u f g

/-- Number of rows of the table carrying a given key. -/
def countRows : DB → String → String → Option String → ℕ
  | [], _, _, _ => 0
  | r :: t, u, f, g =>
      (if rowKey r u f g then 1 else 0) + countRows t u f g

/-- `INSERT ... VALUES (..., gid, ...) ON CONFLICT(user_id, friend_id,
group_id) DO UPDATE SET amount = amount + δ` with a non-NULL `group_id`: the
unique index fires, so the first (and, under the schema constraint, only)
matching row accumulates δ; otherwise a fresh row holding δ is appended. -/
def upsertScoped : DB → String → String → String → ℚ → DB
  | [], u, f, gid, d => [⟨u, f, some gid, d⟩]
  | r :: t, u, f, gid, d =>
      if rowKey r u f (some gid) then { r with amount := r.amount + d } :: t
      else r :: upsertScoped t u f gid d

/-- The same upsert statement executed with `group_id = NULL`: NULLs are
distinct in the unique index, so the ON CONFLICT clause never fires and the
statement always appends a fresh row holding δ. -/
def insertNull (db : DB) (u f : String) (d : ℚ) : DB :=
  db ++ [⟨u, f, none, d⟩]

/-- `updateBalance(db, userId, friendId, amount, groupId)` from
`src/routes/expenses.ts:592-613`: one upsert at the given scope, and — when
`groupId !== null` — a second upsert at the aggregate (NULL) scope. -/
def updateBalance (db : DB) (u f : String) (d : ℚ) (g : Option String) : DB :=
  match g with
  | some gid => insertNull (upsertScoped db u f gid d) u f d
  | none => insertNull db u f d

/-- The paired adjustment every expense route performs for a non-payer split:
`updateBalance(payer, other, +a, g)` followed by
`updateBalance(other, payer, -a, g)`. -/
def adjustPair (db : DB) (p q : String) (a : ℚ) (g : Option String) : DB :=
  updateBalance (updateBalance db p q a g) q p (-a) g

/-- The balance loop of `expenseRoutes.post('/')` (expenses.ts:214-220): for
each split, skip the payer's own split, otherwise adjust the pair by the
split's amount.  Splits are `(userId, amount)` pairs. -/
def applyExpense (db : DB) (p : String) (splits : List (String × ℚ))
    (g : Option String) : DB :=
  splits.foldl (fun acc s => if s.1 = p then acc else adjustPair acc p s.1 s.2 g) db

/-- The balance loop of `expenseRoutes.delete('/:expenseId')`
(expenses.ts:492-496) and of the reversal phase of the update route
(expenses.ts:378-382): for each stored split, skip the payer's split,
otherwise adjust the pair by the negated amount. -/
def reverseExpense (db : DB) (p : String) (splits : List (String × ℚ))
    (g : Option String) : DB :=
  splits.foldl (fun acc s => if s.1 = p then acc else adjustPair acc p s.1 (-s.2) g) db

/-- One `UPDATE balances SET amount = amount + δ WHERE user_id = u AND
friend_id = f AND (group_id = g OR (g IS NULL AND group_id IS NULL))`
statement of the settlement-confirm route: adds δ to every matching row,
creates nothing. -/
def mapAddWhere (db : DB) (u f : String) (g : Option String) (d : ℚ) : DB :=
  db.map (fun r => if rowKey r u f g then { r with amount := r.amount + d } else r)

/-- The two balance statements of `settlementRoutes.post('/:settlementId/confirm')`
(settlements.ts:122-130): `entry(from, to, scope) -= amount` then
`entry(to, from, scope) += amount`, each as a plain UPDATE at the settlement's
own scope only. -/
def confirmAdjust (db : DB) (fromU toU : String) (g : Option String) (a : ℚ) : DB :=
  mapAddWhere (mapAddWhere db fromU toU g (-a)) toU fromU g a

/-! ## Entry-sum algebra of the adjustment primitives -/

/-- Indicator summand: `d` if the written key `(u, f, g)` is the observed key
`(x, y, s)`, else `0`. -/
def keyInd (u f : String) (g : Option String) (x y : String) (s : Option String)
    (d : ℚ) : ℚ :=
  if u = x ∧ f = y ∧ g = s then d else 0

theorem keyInd_cancel (u f : String) (G : Option String) (x y : String)
    (s : Option String) (d : ℚ) :
    keyInd u f G x y s d + keyInd f u G y x s (-d) = 0 := by
  unfold keyInd
  simp only [show (f = y ∧ u = x ∧ G = s) ↔ (u = x ∧ f = y ∧ G = s) by tauto]
  split_ifs <;> ring

theorem keyInd_neg (u f : String) (G : Option String) (x y : String)
    (s : Option String) (d : ℚ) :
    keyInd u f G x y s (-d) = -keyInd u f G x y s d := by
  unfold keyInd; split_ifs <;> ring

theorem entrySum_append (a b : DB) (x y : String) (s : Option String) :
    entrySum (a ++ b) x y s = entrySum a x y s + entrySum b x y s := by
  induction a with
  | nil => simp [entrySum]
  | cons r t ih => simp [entrySum, ih]; ring

theorem entrySum_insertNull (db : DB) (u f : String) (d : ℚ) (x y : String)
    (s : Option String) :
    entrySum (insertNull db u f d) x y s =
      entrySum db x y s + keyInd u f none x y s d := by
  unfold insertNull
  rw [entrySum_append]
  simp [entrySum, keyInd, rowKey]

theorem entrySum_upsertScoped (db : DB) (u f gid : String) (d : ℚ) (x y : String)
    (s : Option String) :
    entrySum (upsertScoped db u f gid d) x y s =
      entrySum db x y s + keyInd u f (some gid) x y s d := by
  induction db with
  | nil => simp [upsertScoped, entrySum, keyInd, rowKey]
  | cons r t ih =>
    by_cases h : rowKey r u f (some gid)
    · simp only [upsertScoped, if_pos h, entrySum]
      obtain ⟨hu, hf, hg⟩ := h
      simp only [keyInd, rowKey, hu, hf, hg]
      split_ifs <;> ring
    · simp only [upsertScoped, if_neg h, entrySum, ih]
      ring

/-- The summand an `updateBalance(u, f, d, g)` call contributes to the entry of
an observed key: `d` at the written scope, and `d` again at the aggregate
(NULL) scope when the written scope is a group. -/
def updDelta (u f : String) (g : Option String) (x y : String) (s : Option String)
    (d : ℚ) : ℚ :=
  keyInd u f g x y s d + if g.isSome then keyInd u f none x y s d else 0

theorem entrySum_updateBalance (db : DB) (u f : String) (d : ℚ) (g : Option String)
    (x y : String) (s : Option String) :
    entrySum (updateBalance db u f d g) x y s =
      entrySum db x y s + updDelta u f g x y s d := by
  cases g with
  | none => simp [updateBalance, entrySum_insertNull, updDelta]
  | some gid =>
    simp [updateBalance, entrySum_insertNull, entrySum_upsertScoped, updDelta]
    ring

/-- The summand one `adjustPair` (the two paired `updateBalance` calls of the
expense routes) contributes to the entry of an observed key. -/
def pairDelta (p q : String) (a : ℚ) (g : Option String) (x y : String)
    (s : Option String) : ℚ :=
  updDelta p q g x y s a + updDelta q p g x y s (-a)

theorem entrySum_adjustPair (db : DB) (p q : String) (a : ℚ) (g : Option String)
    (x y : String) (s : Option String) :
    entrySum (adjustPair db p q a g) x y s =
      entrySum db x y s + pairDelta p q a g x y s := by
  unfold adjustPair pairDelta
  rw [entrySum_updateBalance, entrySum_updateBalance]
  ring

theorem pairDelta_antisymm (p q : String) (a : ℚ) (g : Option String)
    (x y : String) (s : Option String) :
    pairDelta p q a g x y s + pairDelta p q a g y x s = 0 := by
  have h1 := keyInd_cancel p q g x y s a
  have h2 := keyInd_cancel q p g x y s (-a)
  have h3 := keyInd_cancel p q none x y s a
  have h4 := keyInd_cancel q p none x y s (-a)
  cases g <;> simp [pairDelta, updDelta] at * <;> linarith

theorem pairDelta_neg (p q : String) (a : ℚ) (g : Option String)
    (x y : String) (s : Option String) :
    pairDelta p q (-a) g x y s = -pairDelta p q a g x y s := by
  cases g <;> simp [pairDelta, updDelta, keyInd_neg] <;> ring

/-- The summand a whole expense's balance loop contributes to the entry of an
observed key: payer's own split contributes nothing, every other split
contributes its `pairDelta`. -/
def expenseDelta (p : String) (splits : List (String × ℚ)) (g : Option String)
    (x y : String) (s : Option String) : ℚ :=
  (splits.map (fun t => if t.1 = p then 0 else pairDelta p t.1 t.2 g x y s)).sum

theorem entrySum_applyExpense (db : DB) (p : String) (splits : List (String × ℚ))
    (g : Option String) (x y : String) (s : Option String) :
    entrySum (applyExpense db p splits g) x y s =
      entrySum db x y s + expenseDelta p splits g x y s := by
  induction splits generalizing db with
  | nil => simp [applyExpense, expenseDelta]
  | cons t rest ih =>
    show entrySum (applyExpense (if t.1 = p then db else adjustPair db p t.1 t.2 g)
        p rest g) x y s = _
    by_cases h : t.1 = p
    · simp [h, ih, expenseDelta, List.map_cons]
    · simp only [if_neg h, ih, entrySum_adjustPair, expenseDelta, List.map_cons,
        List.sum_cons]
      ring

theorem entrySum_reverseExpense (db : DB) (p : String) (splits : List (String × ℚ))
    (g : Option String) (x y : String) (s : Option String) :
    entrySum (reverseExpense db p splits g) x y s =
      entrySum db x y s - expenseDelta p splits g x y s := by
  induction splits generalizing db with
  | nil => simp [reverseExpense, expenseDelta]
  | cons t rest ih =>
    show entrySum (reverseExpense (if t.1 = p then db else adjustPair db p t.1 (-t.2) g)
        p rest g) x y s = _
    by_cases h : t.1 = p
    · simp [h, ih, expenseDelta, List.map_cons]
    · simp only [if_neg h, ih, entrySum_adjustPair, pairDelta_neg, expenseDelta,
        List.map_cons, List.sum_cons]
      ring

theorem expenseDelta_antisymm (p : String) (splits : List (String × ℚ))
    (g : Option String) (x y : String) (s : Option String) :
    expenseDelta p splits g x y s + expenseDelta p splits g y x s = 0 := by
  induction splits with
  | nil => simp [expenseDelta]
  | cons t rest ih =>
    simp only [expenseDelta, List.map_cons, List.sum_cons] at *
    by_cases h : t.1 = p
    · simp only [if_pos h]; linarith
    · simp only [if_neg h]
      have := pairDelta_antisymm p t.1 t.2 g x y s
      linarith

/-! ## Row-count algebra (used for the settlement-confirm UPDATEs, which touch
every row matching the pair and scope) -/

theorem countRows_append (a b : DB) (x y : String) (s : Option String) :
    countRows (a ++ b) x y s = countRows a x y s + countRows b x y s := by
  induction a with
  | nil => simp [countRows]
  | cons r t ih => simp [countRows, ih]; ring

theorem countRows_insertNull (db : DB) (u f : String) (d : ℚ) (x y : String)
    (s : Option String) :
    countRows (insertNull db u f d) x y s =
      countRows db x y s + if u = x ∧ f = y ∧ (none : Option String) = s then 1 else 0 := by
  unfold insertNull
  rw [countRows_append]
  simp [countRows, rowKey]

theorem countRows_upsertScoped (db : DB) (u f gid : String) (d : ℚ) (x y : String)
    (s : Option String) :
    countRows (upsertScoped db u f gid d) x y s =
      countRows db x y s +
        if countRows db u f (some gid) = 0 ∧ u = x ∧ f = y ∧ some gid = s then 1
        else 0 := by
  induction db with
  | nil => simp [upsertScoped, countRows, rowKey]
  | cons r t ih =>
    by_cases h : rowKey r u f (some gid)
    · simp only [upsertScoped, if_pos h, countRows]
      have h1 : (if rowKey { r with amount := r.amount + d } x y s then (1 : ℕ) else 0)
          = if rowKey r x y s then 1 else 0 := by simp [rowKey]
      rw [h1]
      have hfalse : ¬(1 + countRows t u f (some gid) = 0 ∧ u = x ∧ f = y ∧
          some gid = s) := by rintro ⟨hc, -⟩; omega
      rw [if_neg hfalse]
      omega
    · simp only [upsertScoped, if_neg h, countRows, ih, Nat.zero_add]
      omega

theorem countRows_mapAddWhere (db : DB) (u f : String) (g : Option String) (d : ℚ)
    (x y : String) (s : Option String) :
    countRows (mapAddWhere db u f g d) x y s = countRows db x y s := by
  induction db with
  | nil => rfl
  | cons r t ih =>
    simp only [mapAddWhere, List.map_cons, countRows] at *
    rw [ih]
    by_cases h : rowKey r u f g
    · simp only [if_pos h]
      have : rowKey { r with amount := r.amount + d } x y s ↔ rowKey r x y s := by
        simp [rowKey]
      split_ifs with h1 h2 h2 <;> simp_all
    · simp [if_neg h]

theorem entrySum_mapAddWhere (db : DB) (u f : String) (g : Option String) (d : ℚ)
    (x y : String) (s : Option String) :
    entrySum (mapAddWhere db u f g d) x y s =
      entrySum db x y s +
        if u = x ∧ f = y ∧ g = s then d * countRows db u f g else 0 := by
  induction db with
  | nil => simp [mapAddWhere, entrySum, countRows]
  | cons r t ih =>
    simp only [mapAddWhere, List.map_cons, entrySum, countRows] at *
    rw [ih]
    by_cases h : rowKey r u f g
    · obtain ⟨hu, hf, hg⟩ := h
      have hkey : rowKey { r with amount := r.amount + d } x y s ↔
          rowKey r x y s := by simp [rowKey]
      simp only [if_pos (show rowKey r u f g from ⟨hu, hf, hg⟩), hkey]
      by_cases hx : rowKey r x y s
      · obtain ⟨hxu, hxf, hxg⟩ := hx
        have hc : u = x ∧ f = y ∧ g = s :=
          ⟨hu.symm.trans hxu, hf.symm.trans hxf, hg.symm.trans hxg⟩
        simp only [if_pos hc, if_pos (show rowKey r x y s from ⟨hxu, hxf, hxg⟩),
          if_pos (show rowKey r u f g from ⟨hu, hf, hg⟩)]
        push_cast
        ring
      · have hc : ¬(u = x ∧ f = y ∧ g = s) := by
          rintro ⟨rfl, rfl, rfl⟩
          exact hx ⟨hu, hf, hg⟩
        simp only [if_neg hc, if_neg hx]
        ring
    · simp only [if_neg h]
      by_cases hc : u = x ∧ f = y ∧ g = s
      · obtain ⟨rfl, rfl, rfl⟩ := hc
        have hr : (if rowKey r u f g then (1 : ℕ) else 0) = 0 := if_neg h
        simp only [if_pos (⟨rfl, rfl, rfl⟩ : u = u ∧ f = f ∧ g = g), hr]
        push_cast
        ring_nf
      · simp only [if_neg hc]
        ring

theorem entrySum_confirmAdjust (db : DB) (fu tu : String) (g : Option String)
    (a : ℚ) (x y : String) (s : Option String) :
    entrySum (confirmAdjust db fu tu g a) x y s =
      entrySum db x y s +
        (if fu = x ∧ tu = y ∧ g = s then -a * countRows db fu tu g else 0) +
        (if tu = x ∧ fu = y ∧ g = s then a * countRows db tu fu g else 0) := by
  unfold confirmAdjust
  rw [entrySum_mapAddWhere, entrySum_mapAddWhere, countRows_mapAddWhere]

/-! ## The ledger invariants and the mutation step relation -/

/-- Mirror invariant of the spec: for every pair and scope the two directed
entries sum to zero. -/
def mirrorInv (db : DB) : Prop :=
  ∀ x y : String, ∀ s : Option String,
    entrySum db x y s + entrySum db y x s = 0

/-- Structural table invariant maintained by all writes of the repository:
the two directions of a pair hold the same number of rows at every scope
(rows are only ever created in mirrored pairs by `updateBalance`). -/
def countSym (db : DB) : Prop :=
  ∀ x y : String, ∀ s : Option String, countRows db x y s = countRows db y x s

/-- The four ledger mutations of the claim: expense create
(`expenseRoutes.post`), expense update with replaced splits
(`expenseRoutes.put`, which reverses the stored splits and then applies the
new ones at the same scope), expense delete (`expenseRoutes.delete`), and
settlement confirmation (`settlementRoutes.post('/:settlementId/confirm')`). -/
inductive LedgerMutation where
  | expenseCreate (payer : String) (splits : List (String × ℚ)) (scope : Option String)
  | expenseUpdate (oldPayer : String) (oldSplits : List (String × ℚ))
      (newPayer : String) (newSplits : List (String × ℚ)) (scope : Option String)
  | expenseDelete (payer : String) (splits : List (String × ℚ)) (scope : Option String)
  | settlementConfirm (fromU toU : String) (scope : Option String) (amount : ℚ)

/-- Effect of each mutation on the `balances` table, as the routes execute it. -/
def applyLedgerMutation (db : DB) : LedgerMutation → DB
  | .expenseCreate p sp g => applyExpense db p sp g
  | .expenseUpdate op os np ns g => applyExpense (reverseExpense db op os g) np ns g
  | .expenseDelete p sp g => reverseExpense db p sp g
  | .settlementConfirm f t g a => confirmAdjust db f t g a

theorem mirrorInv_nil : mirrorInv ([] : DB) := by
  intro x y s; simp [entrySum]

theorem countSym_nil : countSym ([] : DB) := by
  intro x y s; rfl

/-- C1. For every pair of users, every scope, and every ledger mutation the
repository performs (expense create, expense update with replaced splits,
expense delete, settlement confirmation): if the mirror invariant
`entry(A,B,scope) + entry(B,A,scope) = 0` holds before the mutation it still
holds after it.  The hypothesis `countSym` is the structural table invariant
(equal row multiplicity in the two directions of a pair) that every write of
the repository maintains from the empty table — see
`countSym_applyLedgerMutation` below. -/
theorem c1_mirror_invariant_preserved (db : DB) (m : LedgerMutation)
    (hsym : countSym db) (hmir : mirrorInv db) :
    mirrorInv (applyLedgerMutation db m) := by
  intro x y s
  cases m with
  | expenseCreate p sp g =>
    simp only [applyLedgerMutation, entrySum_applyExpense]
    have := expenseDelta_antisymm p sp g x y s
    have := hmir x y s
    linarith
  | expenseUpdate op os np ns g =>
    simp only [applyLedgerMutation, entrySum_applyExpense, entrySum_reverseExpense]
    have := expenseDelta_antisymm op os g x y s
    have := expenseDelta_antisymm np ns g x y s
    have := hmir x y s
    linarith
  | expenseDelete p sp g =>
    simp only [applyLedgerMutation, entrySum_reverseExpense]
    have := expenseDelta_antisymm p sp g x y s
    have := hmir x y s
    linarith
  | settlementConfirm f t g a =>
    simp only [applyLedgerMutation, entrySum_confirmAdjust]
    rw [hsym f t g]
    have hm := hmir x y s
    have e1 : (f = x ∧ t = y ∧ g = s) ↔ (t = y ∧ f = x ∧ g = s) := by tauto
    have e2 : (t = x ∧ f = y ∧ g = s) ↔ (f = y ∧ t = x ∧ g = s) := by tauto
    simp only [e1, e2]
    split_ifs <;> linarith

/-- C6. `reverse(apply(e))` is the identity on every observable ledger entry:
creating an expense (payer `p`, stored splits, scope `g`) and then deleting it
returns every entry — group-scoped and aggregate alike — to its value before
the creation, for any prior table contents and any splits. -/
theorem c6_reverse_apply_restores (db : DB) (p : String)
    (splits : List (String × ℚ)) (g : Option String) (x y : String)
    (s : Option String) :
    entrySum (reverseExpense (applyExpense db p splits g) p splits g) x y s =
      entrySum db x y s := by
  rw [entrySum_reverseExpense, entrySum_applyExpense]
  ring

theorem countRows_updateBalance (db : DB) (u f : String) (d : ℚ) (g : Option String)
    (x y : String) (s : Option String) :
    countRows (updateBalance db u f d g) x y s =
      countRows db x y s +
        (if countRows db u f g = 0 ∧ g.isSome = true ∧ u = x ∧ f = y ∧ g = s
          then 1 else 0) +
        (if u = x ∧ f = y ∧ (none : Option String) = s then 1 else 0) := by
  cases g with
  | none =>
    have hdef : updateBalance db u f d none = insertNull db u f d := rfl
    rw [hdef, countRows_insertNull]
    have : ¬(countRows db u f none = 0 ∧ (Option.isSome (none : Option String)) = true ∧
        u = x ∧ f = y ∧ (none : Option String) = s) := by
      rintro ⟨-, hs, -⟩; simp at hs
    rw [if_neg this]
    omega
  | some gid =>
    have hdef : updateBalance db u f d (some gid) =
        insertNull (upsertScoped db u f gid d) u f d := rfl
    rw [hdef, countRows_insertNull, countRows_upsertScoped]
    have he : (countRows db u f (some gid) = 0 ∧ u = x ∧ f = y ∧ some gid = s) ↔
        (countRows db u f (some gid) = 0 ∧ (Option.isSome (some gid)) = true ∧
          u = x ∧ f = y ∧ some gid = s) := by
      simp
    simp only [he]

set_option maxHeartbeats 2000000 in
theorem countSym_adjustPair (db : DB) (p q : String) (a : ℚ) (g : Option String)
    (h : countSym db) : countSym (adjustPair db p q a g) := by
  intro x y s
  have hbase := h x y s
  have hpq' := h p q g
  unfold adjustPair
  simp only [countRows_updateBalance]
  by_cases hpq : p = q
  · subst hpq
    have e1 : (p = y ∧ p = x ∧ g = s) ↔ (p = x ∧ p = y ∧ g = s) := by tauto
    have e2 : (p = y ∧ p = x ∧ (none : Option String) = s) ↔
        (p = x ∧ p = y ∧ (none : Option String) = s) := by tauto
    simp only [e1, e2]
    omega
  · simp only [hpq']
    have h1 : (countRows db q p g = 0 ∧ g.isSome = true ∧ p = q ∧ q = p ∧ True) = False :=
      eq_false (by rintro ⟨-, -, hc, -⟩; exact hpq hc)
    have h2 : (p = q ∧ q = p ∧ (none : Option String) = g) = False :=
      eq_false (by rintro ⟨hc, -⟩; exact hpq hc)
    simp only [h1, h2, if_false, Nat.add_zero]
    have e1 : (p = y ∧ q = x ∧ g = s) ↔ (q = x ∧ p = y ∧ g = s) := by tauto
    have e2 : (q = y ∧ p = x ∧ g = s) ↔ (p = x ∧ q = y ∧ g = s) := by tauto
    have e3 : (p = y ∧ q = x ∧ (none : Option String) = s) ↔
        (q = x ∧ p = y ∧ (none : Option String) = s) := by tauto
    have e4 : (q = y ∧ p = x ∧ (none : Option String) = s) ↔
        (p = x ∧ q = y ∧ (none : Option String) = s) := by tauto
    simp only [e1, e2, e3, e4]
    omega

theorem countSym_applyExpense (db : DB) (p : String) (splits : List (String × ℚ))
    (g : Option String) (h : countSym db) : countSym (applyExpense db p splits g) := by
  induction splits generalizing db with
  | nil => exact h
  | cons t rest ih =>
    show countSym (applyExpense (if t.1 = p then db else adjustPair db p t.1 t.2 g)
      p rest g)
    by_cases ht : t.1 = p
    · simpa [ht] using ih db h
    · simp only [if_neg ht]
      exact ih _ (countSym_adjustPair db p t.1 t.2 g h)

theorem countSym_reverseExpense (db : DB) (p : String) (splits : List (String × ℚ))
    (g : Option String) (h : countSym db) : countSym (reverseExpense db p splits g) := by
  induction splits generalizing db with
  | nil => exact h
  | cons t rest ih =>
    show countSym (reverseExpense (if t.1 = p then db else adjustPair db p t.1 (-t.2) g)
      p rest g)
    by_cases ht : t.1 = p
    · simpa [ht] using ih db h
    · simp only [if_neg ht]
      exact ih _ (countSym_adjustPair db p t.1 (-t.2) g h)

theorem countSym_confirmAdjust (db : DB) (f t : String) (g : Option String)
    (a : ℚ) (h : countSym db) : countSym (confirmAdjust db f t g a) := by
  intro x y s
  unfold confirmAdjust
  simp only [countRows_mapAddWhere]
  exact h x y s

/-- The structural row-multiplicity invariant `countSym` (assumed by the
mirror-preservation theorem) is itself preserved by every ledger mutation, and
holds for the empty table — so it holds in every reachable table state. -/
theorem countSym_applyLedgerMutation (db : DB) (m : LedgerMutation)
    (h : countSym db) : countSym (applyLedgerMutation db m) := by
  cases m with
  | expenseCreate p sp g => exact countSym_applyExpense db p sp g h
  | expenseUpdate op os np ns g =>
    exact countSym_applyExpense _ np ns g (countSym_reverseExpense db op os g h)
  | expenseDelete p sp g => exact countSym_reverseExpense db p sp g h
  | settlementConfirm f t g a => exact countSym_confirmAdjust db f t g a h

/-- Witness for C1: on the empty table (which satisfies both invariants), a
concrete group expense — 60.00 paid by U1 split equally with U2 and U3 —
preserves the mirror invariant. -/
theorem c1_mirror_invariant_preserved_witness :
    mirrorInv (applyLedgerMutation []
      (.expenseCreate "U1" [("U1", 20), ("U2", 20), ("U3", 20)] (some "g1"))) :=
  c1_mirror_invariant_preserved []
    (.expenseCreate "U1" [("U1", 20), ("U2", 20), ("U3", 20)] (some "g1"))
    countSym_nil mirrorInv_nil

/-! ## Settlement routes (`src/routes/settlements.ts`)

The routes read and mutate the `settlements` table and, on confirm, the
`balances` table.  Notifications, broadcasts and timestamps have no effect on
either table and are omitted.  Each route performs its lookup and
authorization check *before* any write, so an error response leaves both
tables untouched; the `Except` embedding below reflects exactly that. -/

/-- `status` column of a settlement row (`'pending' | 'confirmed' | 'rejected'`). -/
inductive SettStatus where
  | pending
  | confirmed
  | rejected
deriving DecidableEq

/-- A row of the `settlements` table (columns the route logic reads). -/
structure Settlement where
  sid : String
  from_user_id : String
  to_user_id : String
  group_id : Option String
  amount : ℚ
  status : SettStatus
deriving DecidableEq

/-- The state the settlement routes operate on: the `balances` table and the
`settlements` table. -/
structure AppState where
  db : DB
  setts : List Settlement
deriving DecidableEq

/-- Error responses of the settlement routes.  The code only ever produces
`notFound` (404 `'Settlement not found'`) and `notAuthorized` (403
`'Not authorized'`); `invalidTransition` is the error class named by the
spec's taxonomy and is listed here so that statements about it can be made —
no route produces it. -/
inductive ApiErr where
  | notFound
  | notAuthorized
  | invalidTransition
deriving DecidableEq

instance {ε α : Type} [DecidableEq ε] [DecidableEq α] : DecidableEq (Except ε α)
  | .error e, .error e' =>
    if h : e = e' then .isTrue (by rw [h]) else .isFalse (fun hc => h (Except.error.inj hc))
  | .error _, .ok _ => .isFalse (fun hc => Except.noConfusion hc)
  | .ok _, .error _ => .isFalse (fun hc => Except.noConfusion hc)
  | .ok a, .ok a' =>
    if h : a = a' then .isTrue (by rw [h]) else .isFalse (fun hc => h (Except.ok.inj hc))

/-- `SELECT * FROM settlements WHERE id = ? AND status = 'pending'` followed
by `.first()`: the first row with the given id that is still pending. -/
def findPending (l : List Settlement) (sid : String) : Option Settlement :=
  l.find? (fun s => s.sid = sid ∧ s.status = .pending)

/-- `UPDATE settlements SET status = ? WHERE id = ?`: set the status of every
row with the given id (the id is the primary key, so at most one row). -/
def setStatus (l : List Settlement) (sid : String) (st : SettStatus) :
    List Settlement :=
  l.map (fun s => if s.sid = sid then { s with status := st } else s)

/-- `settlementRoutes.post('/')` (settlements.ts:61-101): inserts a new
pending settlement row; it executes no statement against `balances`. -/
def createSettlement (st : AppState) (caller toUserId : String)
    (g : Option String) (amount : ℚ) (sid : String) : AppState :=
  { st with setts := st.setts ++ [⟨sid, caller, toUserId, g, amount, .pending⟩] }

/-- `settlementRoutes.post('/:settlementId/confirm')` (settlements.ts:104-154):
look up the pending row (404 if absent or not pending), check the caller is
the recipient `to_user_id` (403 otherwise), then mark the row confirmed and
run the two balance UPDATEs of `confirmAdjust`. -/
def confirmSettlement (st : AppState) (caller sid : String) :
    Except ApiErr AppState :=
  match findPending st.setts sid with
  | none => .error .notFound
  | some s =>
      if s.to_user_id ≠ caller then .error .notAuthorized
      else .ok { db := confirmAdjust st.db s.from_user_id s.to_user_id
                        s.group_id s.amount,
                 setts := setStatus st.setts sid .confirmed }

/-- `settlementRoutes.post('/:settlementId/reject')` (settlements.ts:157-172):
look up the pending row, check the caller is the recipient, mark rejected.
No statement touches `balances`. -/
def rejectSettlement (st : AppState) (caller sid : String) :
    Except ApiErr AppState :=
  match findPending st.setts sid with
  | none => .error .notFound
  | some s =>
      if s.to_user_id ≠ caller then .error .notAuthorized
      else .ok { st with setts := setStatus st.setts sid .rejected }

/-- `settlementRoutes.delete('/:settlementId')` (settlements.ts:175-190):
look up the pending row, check the caller is the creator `from_user_id`,
delete the row.  No statement touches `balances`. -/
def deleteSettlement (st : AppState) (caller sid : String) :
    Except ApiErr AppState :=
  match findPending st.setts sid with
  | none => .error .notFound
  | some s =>
      if s.from_user_id ≠ caller then .error .notAuthorized
      else .ok { st with setts := st.setts.filter (fun s' => s'.sid ≠ sid) }

/-- After marking a settlement id confirmed, no pending row with that id is
left, so the confirm route's `WHERE id = ? AND status = 'pending'` lookup
comes back empty. -/
theorem findPending_setStatus_confirmed (l : List Settlement) (sid : String) :
    findPending (setStatus l sid .confirmed) sid = none := by
  induction l with
  | nil => rfl
  | cons s t ih =>
    by_cases h : s.sid = sid
    · simp [setStatus, findPending, List.find?, h] at *
      exact ih
    · simp [setStatus, findPending, List.find?, h] at *
      exact ih

/-- C4. The ledger adjustment of a settlement is applied exactly once, and
only by the pending-to-confirmed transition: creating a settlement executes
no statement against `balances`; a successful reject leaves `balances`
untouched; a successful creator delete leaves `balances` untouched; a
successful confirm applies the settlement's `confirmAdjust` exactly once; and
a confirm of an id with no pending row (in particular of an
already-confirmed or rejected settlement) is rejected with no effect. -/
theorem c4_settlement_single_application (st : AppState)
    (caller toU sid newSid : String) (g : Option String) (amount : ℚ) :
    ((createSettlement st caller toU g amount newSid).db = st.db) ∧
    (∀ st', rejectSettlement st caller sid = .ok st' → st'.db = st.db) ∧
    (∀ st', deleteSettlement st caller sid = .ok st' → st'.db = st.db) ∧
    (∀ st' s, findPending st.setts sid = some s →
        confirmSettlement st caller sid = .ok st' →
        st'.db = confirmAdjust st.db s.from_user_id s.to_user_id
                   s.group_id s.amount) ∧
    (findPending st.setts sid = none →
        confirmSettlement st caller sid = .error .notFound) := by
  refine ⟨rfl, ?_, ?_, ?_, ?_⟩
  · intro st' h
    cases hf : findPending st.setts sid with
    | none => simp [rejectSettlement, hf] at h
    | some s =>
      by_cases hc : s.to_user_id ≠ caller
      · simp [rejectSettlement, hf, hc] at h
      · simp [rejectSettlement, hf, hc] at h
        rw [← h]
  · intro st' h
    cases hf : findPending st.setts sid with
    | none => simp [deleteSettlement, hf] at h
    | some s =>
      by_cases hc : s.from_user_id ≠ caller
      · simp [deleteSettlement, hf, hc] at h
      · simp [deleteSettlement, hf, hc] at h
        rw [← h]
  · intro st' s hfp h
    by_cases hc : s.to_user_id ≠ caller
    · simp [confirmSettlement, hfp, hc] at h
    · simp [confirmSettlement, hfp, hc] at h
      rw [← h]
  · intro hnone
    simp [confirmSettlement, hnone]

/-- Concrete state for the C4 witness: one mirrored balance pair and one
pending settlement `t1` from `B` to `A` over 5.00. -/
def c4state : AppState :=
  ⟨[⟨"A", "B", none, 5⟩, ⟨"B", "A", none, -5⟩],
   [⟨"t1", "B", "A", none, 5, .pending⟩]⟩

def c4rejState : AppState := ⟨c4state.db, setStatus c4state.setts "t1" .rejected⟩

def c4delState : AppState :=
  ⟨c4state.db, c4state.setts.filter (fun s' => s'.sid ≠ "t1")⟩

def c4confState : AppState :=
  ⟨confirmAdjust c4state.db "B" "A" none 5, setStatus c4state.setts "t1" .confirmed⟩

/-- Witness for C4 at the concrete state: create/reject/delete leave the
`balances` table untouched and confirm applies the adjustment once. -/
theorem c4_settlement_single_application_witness :
    (createSettlement c4state "A" "B" none 5 "t2").db = c4state.db ∧
    c4rejState.db = c4state.db ∧
    c4delState.db = c4state.db ∧
    c4confState.db = confirmAdjust c4state.db "B" "A" none 5 := by
  have h1 := c4_settlement_single_application c4state "A" "B" "t1" "t2" none 5
  have h2 := c4_settlement_single_application c4state "B" "B" "t1" "t2" none 5
  exact ⟨h1.1, h1.2.1 c4rejState rfl, h2.2.2.1 c4delState rfl,
    h1.2.2.2.1 c4confState ⟨"t1", "B", "A", none, 5, .pending⟩ rfl rfl⟩

/-- Ledger state reached by one group expense: `A` paid 10.00 for `B` in
group `g` (rows `(A,B,g,10)`, `(A,B,∅,10)`, `(B,A,g,-10)`, `(B,A,∅,-10)`),
with a pending settlement `s1` from `B` to `A` over 10.00 scoped to `g` —
`B` paying their debt back. -/
def c2state : AppState :=
  ⟨applyExpense [] "A" [("B", 10)] (some "g"),
   [⟨"s1", "B", "A", some "g", 10, .pending⟩]⟩

/-- C2 (failing input): confirming the group-scoped settlement `s1` leaves
`entry(A,B,g) = 20` and the aggregate `entry(A,B,∅) = 10`.  The claim (and
spec) require `entry(A,B,g)` to be decremented to `0` and the aggregate to be
decremented alongside, keeping the scoped sum equal to the aggregate; the code
moves the scoped entries in the opposite direction (a confirmed payment
*increases* the recorded debt) and never touches the aggregate rows, so the
scoped sum (20) no longer matches the aggregate (10). -/
theorem c2_settlement_confirm_bug :
    (confirmSettlement c2state "A" "s1").map
        (fun st => (entrySum st.db "A" "B" (some "g"),
                    entrySum st.db "A" "B" none,
                    entrySum st.db "B" "A" (some "g"))) =
      Except.ok (20, 10, -20) := by
  have h1 : confirmSettlement c2state "A" "s1" =
      .ok ⟨confirmAdjust c2state.db "B" "A" (some "g") 10,
           setStatus c2state.setts "s1" .confirmed⟩ := rfl
  rw [h1]
  simp only [Except.map]
  simp +decide [c2state, applyExpense, adjustPair, updateBalance, insertNull,
    upsertScoped, confirmAdjust, mapAddWhere, setStatus, entrySum, rowKey,
    List.foldl]
  norm_num

/-- C5 (amended).  Confirming a pending settlement once (by its recipient)
changes the two directed entries of its pair at its scope by exactly its
amount (the recipient-owned entry `entry(to, from, scope)` gains `amount`,
the mirror loses `amount` — hypotheses: the pair is two distinct users and
holds exactly one balance row per direction at that scope, as the schema's
unique index guarantees for group scopes); a second confirm attempt, by any
caller, is rejected — with a 404 `notFound` error, because the
`status = 'pending'` lookup no longer matches — and returns before any
balance statement, leaving every ledger entry unchanged. -/
theorem c5_confirm_once_then_reject (st st' : AppState) (s : Settlement)
    (sid caller2 : String)
    (hfp : findPending st.setts sid = some s)
    (hne : s.from_user_id ≠ s.to_user_id)
    (hc1 : countRows st.db s.from_user_id s.to_user_id s.group_id = 1)
    (hc2 : countRows st.db s.to_user_id s.from_user_id s.group_id = 1)
    (hok : confirmSettlement st s.to_user_id sid = .ok st') :
    entrySum st'.db s.from_user_id s.to_user_id s.group_id =
      entrySum st.db s.from_user_id s.to_user_id s.group_id - s.amount ∧
    entrySum st'.db s.to_user_id s.from_user_id s.group_id =
      entrySum st.db s.to_user_id s.from_user_id s.group_id + s.amount ∧
    confirmSettlement st' caller2 sid = .error .notFound := by
  have hst' : st' = { db := confirmAdjust st.db s.from_user_id s.to_user_id
                        s.group_id s.amount,
                      setts := setStatus st.setts sid .confirmed } := by
    simp [confirmSettlement, hfp] at hok
    rw [← hok]
  subst hst'
  refine ⟨?_, ?_, ?_⟩
  · have hpos : s.from_user_id = s.from_user_id ∧ s.to_user_id = s.to_user_id ∧
        s.group_id = s.group_id := ⟨rfl, rfl, rfl⟩
    have hneg : ¬(s.to_user_id = s.from_user_id ∧ s.from_user_id = s.to_user_id ∧
        s.group_id = s.group_id) := by rintro ⟨hx, -⟩; exact hne hx.symm
    rw [entrySum_confirmAdjust, if_pos hpos, if_neg hneg, hc1]
    push_cast
    ring
  · have hneg : ¬(s.from_user_id = s.to_user_id ∧ s.to_user_id = s.from_user_id ∧
        s.group_id = s.group_id) := by rintro ⟨hx, -⟩; exact hne hx
    have hpos : s.to_user_id = s.to_user_id ∧ s.from_user_id = s.from_user_id ∧
        s.group_id = s.group_id := ⟨rfl, rfl, rfl⟩
    rw [entrySum_confirmAdjust, if_neg hneg, if_pos hpos, hc2]
    push_cast
    ring
  · simp [confirmSettlement, findPending_setStatus_confirmed]

/-- Ledger state for the C5 counterexample and witness: `E` paid 3.00 for `F`
directly (no group), and `F` created a pending settlement `s3` paying the
3.00 back to `E`. -/
def c5state : AppState :=
  ⟨applyExpense [] "E" [("F", 3)] none,
   [⟨"s3", "F", "E", none, 3, .pending⟩]⟩

/-- The state the confirm route produces from `c5state`. -/
def c5after : AppState :=
  ⟨confirmAdjust c5state.db "F" "E" none 3, setStatus c5state.setts "s3" .confirmed⟩

/-- C5 (counterexample to the claim as stated): the second confirm attempt of
the same settlement is rejected with the 404 `notFound` error of the
pending-status lookup — not with an `InvalidTransition` error as the claim
states. -/
theorem c5_counterexample :
    confirmSettlement c5state "E" "s3" = Except.ok c5after ∧
    confirmSettlement c5after "E" "s3" = Except.error ApiErr.notFound ∧
    confirmSettlement c5after "E" "s3" ≠ Except.error ApiErr.invalidTransition :=
  ⟨rfl, rfl, by
    intro h
    rw [show confirmSettlement c5after "E" "s3" = Except.error ApiErr.notFound
      from rfl] at h
    exact ApiErr.noConfusion (Except.error.inj h)⟩

/-- Witness for the amended C5 at the concrete state `c5state`: the first
confirm moves `entry(F,E,∅)` from −3 to −6, `entry(E,F,∅)` from 3 to 6
(by exactly the amount 3 each), and the second confirm 404s. -/
theorem c5_confirm_once_then_reject_witness :
    entrySum c5after.db "F" "E" none = entrySum c5state.db "F" "E" none - 3 ∧
    entrySum c5after.db "E" "F" none = entrySum c5state.db "E" "F" none + 3 ∧
    confirmSettlement c5after "X" "s3" = Except.error ApiErr.notFound := by
  have h := c5_confirm_once_then_reject c5state c5after
    ⟨"s3", "F", "E", none, 3, .pending⟩ "s3" "X"
    (by decide) (by decide) (by decide) (by decide) rfl
  exact h

/-- C10. A pending settlement can be confirmed or rejected only by its
recipient `to_user_id`, and deleted only by its creator `from_user_id`: for
any other caller the route returns the 403 `notAuthorized` error.  Each route
performs this check before any write, so the error leaves the settlement row
and every balance row unchanged (the `Except` result carries no state
mutation). -/
theorem c10_settlement_authorization (st : AppState) (caller sid : String)
    (s : Settlement) (hfp : findPending st.setts sid = some s) :
    (s.to_user_id ≠ caller →
      confirmSettlement st caller sid = .error .notAuthorized) ∧
    (s.to_user_id ≠ caller →
      rejectSettlement st caller sid = .error .notAuthorized) ∧
    (s.from_user_id ≠ caller →
      deleteSettlement st caller sid = .error .notAuthorized) := by
  refine ⟨fun hne => ?_, fun hne => ?_, fun hne => ?_⟩
  · simp [confirmSettlement, hfp, hne]
  · simp [rejectSettlement, hfp, hne]
  · simp [deleteSettlement, hfp, hne]

/-- Witness for C10 at the concrete state `c4state` (pending settlement `t1`
from `B` to `A`): the creator `B` cannot confirm or reject, and the recipient
`A` cannot delete. -/
theorem c10_settlement_authorization_witness :
    confirmSettlement c4state "B" "t1" = Except.error ApiErr.notAuthorized ∧
    rejectSettlement c4state "B" "t1" = Except.error ApiErr.notAuthorized ∧
    deleteSettlement c4state "A" "t1" = Except.error ApiErr.notAuthorized := by
  have hB := c10_settlement_authorization c4state "B" "t1"
    ⟨"t1", "B", "A", none, 5, .pending⟩ (by decide)
  have hA := c10_settlement_authorization c4state "A" "t1"
    ⟨"t1", "B", "A", none, 5, .pending⟩ (by decide)
  exact ⟨hB.1 (by decide), hB.2.1 (by decide), hA.2.2 (by decide)⟩

/-! ## The debt simplifier (`simplifyDebts`, `src/routes/groups.ts:590-641`)

Pure function from the positive balance rows of a group to a list of settling
transactions.  The JS `netBalance` object is embedded as an insertion-ordered
association list (string keys of a JS object preserve insertion order, and
`Object.entries` iterates in it).  `Array.prototype.sort` is stable, so the
descending sort by amount is embedded as a stable insertion sort.  The while
loop advances at least one of its two indices every iteration (after the
matched amount is subtracted, one of the two remaining amounts is `0`, hence
`< 0.01` — see `min_sub_self_cases`), so it runs at most
`creditors.length + debtors.length` times; the embedding makes the iteration
count explicit as fuel that never runs out. -/

/-- A row of the balances query feeding `simplifyDebts` (`user_id`,
`friend_id`, `amount`). -/
structure NetRow where
  user_id : String
  friend_id : String
  amount : ℚ
deriving DecidableEq

/-- `netBalance[k] = (netBalance[k] || 0) + d` on an insertion-ordered map. -/
def bump : List (String × ℚ) → String → ℚ → List (String × ℚ)
  | [], k, d => [(k, d)]
  | (k', v) :: t, k, d =>
      if k' = k then (k', v + d) :: t else (k', v) :: bump t k d

/-- Lines 592-597: each balance row adds its amount to `user_id`'s net and
subtracts it from `friend_id`'s net. -/
def computeNets (rows : List NetRow) : List (String × ℚ) :=
  rows.foldl (fun m r => bump (bump m r.user_id r.amount) r.friend_id (-r.amount)) []

/-- Lines 603-609: participants with net `> 0.01` are creditors, those with
net `< -0.01` are debtors (stored with the sign flipped); everyone else is
dropped. -/
def creditorsOf : List (String × ℚ) → List (String × ℚ)
  | [] => []
  | p :: t => if p.2 > 1/100 then p :: creditorsOf t else creditorsOf t

def debtorsOf : List (String × ℚ) → List (String × ℚ)
  | [] => []
  | p :: t => if p.2 < -(1/100) then (p.1, -p.2) :: debtorsOf t else debtorsOf t

/-- Insert into a descending-sorted list after all entries with an amount
`≥` the new one (stability). -/
def insDesc (x : String × ℚ) : List (String × ℚ) → List (String × ℚ)
  | [] => [x]
  | y :: t => if y.2 ≥ x.2 then y :: insDesc x t else x :: y :: t

/-- Lines 612-613: `sort((a, b) => b.amount - a.amount)` — a stable
descending sort by amount. -/
def sortDesc (l : List (String × ℚ)) : List (String × ℚ) :=
  l.foldl (fun acc x => insDesc x acc) []

/-- An emitted transaction `{from_user_id, to_user_id, amount}`. -/
structure Txn where
  from_user_id : String
  to_user_id : String
  amount : ℚ
deriving DecidableEq

/-- `Math.round(q * 100) / 100` — JS rounds half toward `+∞`. -/
def round2 (q : ℚ) : ℚ := (⌊q * 100 + 1/2⌋ : ℤ) / 100

/-- The greedy matching loop (lines 618-638).  One constructor-level step per
iteration: match the current creditor and debtor heads, emit a transaction if
the matched amount exceeds `0.01`, subtract it from both, and drop each party
whose remainder fell below `0.01`.  The fourth branch (neither drops) cannot
occur, since the matched amount is the minimum of the two remainders — the
fuel argument only bounds the iteration count. -/
def greedyLoop : ℕ → List (String × ℚ) → List (String × ℚ) → List Txn
  | 0, _, _ => []
  | _ + 1, [], _ => []
  | _ + 1, _ :: _, [] => []
  | fuel + 1, c :: cs, d :: ds =>
      let amount := min c.2 d.2
      let out := if amount > 1/100 then [⟨d.1, c.1, round2 amount⟩] else []
      let c' := c.2 - amount
      let d' := d.2 - amount
      out ++
        (if c' < 1/100 then
          if d' < 1/100 then greedyLoop fuel cs ds
          else greedyLoop fuel cs ((d.1, d') :: ds)
        else
          if d' < 1/100 then greedyLoop fuel ((c.1, c') :: cs) ds
          else greedyLoop fuel ((c.1, c') :: cs) ((d.1, d') :: ds))

/-- `simplifyDebts(balances)`: nets, partition, sort, greedy matching. -/
def simplifyDebts (rows : List NetRow) : List Txn :=
  let nets := computeNets rows
  let creditors := sortDesc (creditorsOf nets)
  let debtors := sortDesc (debtorsOf nets)
  greedyLoop (creditors.length + debtors.length + 1) creditors debtors

/-- Net position of a participant in a net list. -/
def netOf : List (String × ℚ) → String → ℚ
  | [], _ => 0
  | p :: t, k => (if p.1 = k then p.2 else 0) + netOf t k

/-- Sum of all net positions. -/
def netTotal (m : List (String × ℚ)) : ℚ := (m.map Prod.snd).sum

/-- The net of a participant after executing every output transaction of the
simplifier: each transaction moves its amount from the `from` party to the
`to` party, raising the payer's net and lowering the payee's. -/
def residualAfter (rows : List NetRow) (p : String) : ℚ :=
  netOf (computeNets rows) p
    + ((simplifyDebts rows).map
        (fun t => if t.from_user_id = p then t.amount else 0)).sum
    - ((simplifyDebts rows).map
        (fun t => if t.to_user_id = p then t.amount else 0)).sum

theorem netTotal_bump (m : List (String × ℚ)) (k : String) (d : ℚ) :
    netTotal (bump m k d) = netTotal m + d := by
  induction m with
  | nil => simp [bump, netTotal]
  | cons p t ih =>
    by_cases h : p.1 = k
    · simp [bump, h, netTotal]
      ring
    · simp [bump, h, netTotal] at *
      rw [ih]
      ring

/-- C7 (amended).  The simplifier's input is a list of balance rows, and the
net balances it computes from them always sum to zero by construction (each
row adds its amount to one net and subtracts it from another), so the
"inconsistent input" premise of the claim cannot arise; the code contains no
imbalance check and never signals an `ImbalancedLedger` error — it returns a
plain transaction list for every input, and (see `c7_counterexample`) that
list can silently leave a party with remaining balance above `ε`. -/
theorem c7_nets_always_balance (rows : List NetRow) :
    netTotal (computeNets rows) = 0 := by
  suffices h : ∀ m : List (String × ℚ),
      netTotal (rows.foldl (fun m r =>
        bump (bump m r.user_id r.amount) r.friend_id (-r.amount)) m) = netTotal m by
    have := h []
    simpa [computeNets, netTotal] using this
  induction rows with
  | nil => intro m; rfl
  | cons r t ih =>
    intro m
    show netTotal (t.foldl _ (bump (bump m r.user_id r.amount) r.friend_id
      (-r.amount))) = _
    rw [ih, netTotal_bump, netTotal_bump]
    ring

theorem length_insDesc (x : String × ℚ) (l : List (String × ℚ)) :
    (insDesc x l).length = l.length + 1 := by
  induction l with
  | nil => rfl
  | cons y t ih =>
    by_cases h : y.2 ≥ x.2 <;> simp [insDesc, h, ih]

theorem length_sortDesc (l : List (String × ℚ)) :
    (sortDesc l).length = l.length := by
  suffices h : ∀ acc : List (String × ℚ),
      (l.foldl (fun a x => insDesc x a) acc).length = acc.length + l.length by
    simpa [sortDesc] using h []
  induction l with
  | nil => intro acc; simp
  | cons x t ih =>
    intro acc
    show (t.foldl _ (insDesc x acc)).length = _
    rw [ih, length_insDesc]
    simp [List.length_cons]
    omega

theorem min_sub_self_cases (c d : ℚ) : c - min c d = 0 ∨ d - min c d = 0 := by
  rcases min_choice c d with h | h
  · left; rw [h]; ring
  · right; rw [h]; ring

theorem greedyLoop_nil_left (f : ℕ) (ds : List (String × ℚ)) :
    greedyLoop f [] ds = [] := by
  cases f <;> rfl

theorem greedyLoop_nil_right (f : ℕ) (cs : List (String × ℚ)) :
    greedyLoop f cs [] = [] := by
  cases f with
  | zero => rfl
  | succ n => cases cs <;> rfl

theorem greedyLoop_length_le (f : ℕ) :
    ∀ cs ds : List (String × ℚ),
      (greedyLoop f cs ds).length ≤ cs.length + ds.length := by
  induction f with
  | zero => intro cs ds; simp [greedyLoop]
  | succ n ih =>
    intro cs ds
    match cs, ds with
    | [], _ => simp [greedyLoop_nil_left]
    | _ :: _, [] => simp [greedyLoop_nil_right]
    | c :: cs', d :: ds' =>
      simp only [greedyLoop]
      by_cases h0 : min c.2 d.2 > 1/100 <;>
        [rw [if_pos h0]; rw [if_neg h0]] <;>
        (by_cases h1 : c.2 - min c.2 d.2 < 1/100 <;>
          by_cases h2 : d.2 - min c.2 d.2 < 1/100) <;>
        first
        | (rw [if_pos h1, if_pos h2]
           have := ih cs' ds'
           simp only [List.length_append, List.length_cons, List.length_nil]
           omega)
        | (rw [if_pos h1, if_neg h2]
           have := ih cs' ((d.1, d.2 - min c.2 d.2) :: ds')
           simp only [List.length_append, List.length_cons, List.length_nil] at *
           omega)
        | (rw [if_neg h1, if_pos h2]
           have := ih ((c.1, c.2 - min c.2 d.2) :: cs') ds'
           simp only [List.length_append, List.length_cons, List.length_nil] at *
           omega)
        | (rcases min_sub_self_cases c.2 d.2 with h | h
           · exact absurd (h ▸ (by norm_num : (0:ℚ) < 1/100)) h1
           · exact absurd (h ▸ (by norm_num : (0:ℚ) < 1/100)) h2)

theorem greedyLoop_length_lt (f : ℕ) :
    ∀ (c : String × ℚ) (cs : List (String × ℚ)) (d : String × ℚ)
      (ds : List (String × ℚ)),
      (greedyLoop f (c :: cs) (d :: ds)).length ≤ cs.length + ds.length + 1 := by
  induction f with
  | zero => intro c cs d ds; simp [greedyLoop]
  | succ n ih =>
    intro c cs d ds
    simp only [greedyLoop]
    by_cases h0 : min c.2 d.2 > 1/100 <;>
      [rw [if_pos h0]; rw [if_neg h0]] <;>
      (by_cases h1 : c.2 - min c.2 d.2 < 1/100 <;>
        by_cases h2 : d.2 - min c.2 d.2 < 1/100) <;>
      first
      | (rw [if_pos h1, if_pos h2]
         have := greedyLoop_length_le n cs ds
         simp only [List.length_append, List.length_cons, List.length_nil]
         omega)
      | (rw [if_pos h1, if_neg h2]
         cases cs with
         | nil =>
           rw [greedyLoop_nil_left]
           simp only [List.length_append, List.length_cons, List.length_nil]
           omega
         | cons c2 cs2 =>
           have := ih c2 cs2 (d.1, d.2 - min c.2 d.2) ds
           simp only [List.length_append, List.length_cons, List.length_nil] at *
           omega)
      | (rw [if_neg h1, if_pos h2]
         cases ds with
         | nil =>
           rw [greedyLoop_nil_right]
           simp only [List.length_append, List.length_cons, List.length_nil]
           omega
         | cons e es =>
           have := ih (c.1, c.2 - min c.2 d.2) cs e es
           simp only [List.length_append, List.length_cons, List.length_nil] at *
           omega)
      | (rcases min_sub_self_cases c.2 d.2 with h | h
         · exact absurd (h ▸ (by norm_num : (0:ℚ) < 1/100)) h1
         · exact absurd (h ▸ (by norm_num : (0:ℚ) < 1/100)) h2)

theorem greedyLoop_fuel_ge (n : ℕ) :
    ∀ (cs ds : List (String × ℚ)) (f g : ℕ),
      cs.length + ds.length ≤ n →
      cs.length + ds.length ≤ f →
      cs.length + ds.length ≤ g →
      greedyLoop f cs ds = greedyLoop g cs ds := by
  induction n with
  | zero =>
    intro cs ds f g hn hf hg
    match cs, ds with
    | [], ds => rw [greedyLoop_nil_left, greedyLoop_nil_left]
    | c :: cs', [] => rw [greedyLoop_nil_right, greedyLoop_nil_right]
    | c :: cs', d :: ds' => simp at hn
  | succ n ih =>
    intro cs ds f g hn hf hg
    match cs, ds with
    | [], ds => rw [greedyLoop_nil_left, greedyLoop_nil_left]
    | c :: cs', [] => rw [greedyLoop_nil_right, greedyLoop_nil_right]
    | c :: cs', d :: ds' =>
      simp only [List.length_cons] at hn hf hg
      match f, g with
      | f' + 1, g' + 1 =>
        simp only [greedyLoop]
        congr 1
        by_cases h1 : c.2 - min c.2 d.2 < 1/100 <;>
          by_cases h2 : d.2 - min c.2 d.2 < 1/100
        · rw [if_pos h1, if_pos h2, if_pos h1, if_pos h2]
          exact ih cs' ds' f' g' (by omega) (by omega) (by omega)
        · rw [if_pos h1, if_neg h2, if_pos h1, if_neg h2]
          exact ih cs' ((d.1, d.2 - min c.2 d.2) :: ds') f' g'
            (by simp only [List.length_cons]; omega)
            (by simp only [List.length_cons]; omega)
            (by simp only [List.length_cons]; omega)
        · rw [if_neg h1, if_pos h2, if_neg h1, if_pos h2]
          exact ih ((c.1, c.2 - min c.2 d.2) :: cs') ds' f' g'
            (by simp only [List.length_cons]; omega)
            (by simp only [List.length_cons]; omega)
            (by simp only [List.length_cons]; omega)
        · rcases min_sub_self_cases c.2 d.2 with h | h
          · exact absurd (h ▸ (by norm_num : (0:ℚ) < 1/100)) h1
          · exact absurd (h ▸ (by norm_num : (0:ℚ) < 1/100)) h2

/-- The fuel `creditors.length + debtors.length + 1` passed by
`simplifyDebts` is irrelevant: every iteration of the loop drops at least one
party, so any fuel at least the total party count yields the same output —
the fuel embedding computes exactly the source's while loop. -/
theorem greedyLoop_fuel_irrelevant (cs ds : List (String × ℚ)) (f g : ℕ)
    (hf : cs.length + ds.length ≤ f) (hg : cs.length + ds.length ≤ g) :
    greedyLoop f cs ds = greedyLoop g cs ds :=
  greedyLoop_fuel_ge (cs.length + ds.length) cs ds f g le_rfl hf hg

/-- Number of participants with a nonzero entry in a net list. -/
def nonzeroCount : List (String × ℚ) → ℕ
  | [] => 0
  | p :: t => (if p.2 ≠ 0 then 1 else 0) + nonzeroCount t

/-- Number of participants with a nonzero computed net balance. -/
def nonzeroNetCount (rows : List NetRow) : ℕ :=
  nonzeroCount (computeNets rows)

theorem partition_card (nets : List (String × ℚ)) :
    (creditorsOf nets).length + (debtorsOf nets).length ≤ nonzeroCount nets := by
  induction nets with
  | nil => simp [creditorsOf, debtorsOf, nonzeroCount]
  | cons p t ih =>
    simp only [creditorsOf, debtorsOf, nonzeroCount]
    by_cases h1 : p.2 > 1/100
    · have h2 : ¬(p.2 < -(1/100)) := by linarith
      have hne : p.2 ≠ 0 := ne_of_gt (lt_trans (by norm_num) h1)
      rw [if_pos h1, if_neg h2, if_pos hne]
      simp only [List.length_cons]
      omega
    · by_cases h2 : p.2 < -(1/100)
      · have hne : p.2 ≠ 0 := ne_of_lt (lt_trans h2 (by norm_num))
        rw [if_neg h1, if_pos h2, if_pos hne]
        simp only [List.length_cons]
        omega
      · rw [if_neg h1, if_neg h2]
        by_cases hne : p.2 ≠ 0
        · rw [if_pos hne]; omega
        · rw [if_neg hne]; omega

/-- C3 (amended).  The transaction-count half of the claim holds: for every
input, the simplifier emits at most `n - 1` transactions, where `n` is the
number of participants with nonzero net balance (every iteration of the
greedy loop drops at least one party, and only parties with `|net| > ε` —
all of them nonzero — enter the loop).  The zeroing half of the claim is
false — see `c3_counterexample`: participants whose counterparties all sit
within the `ε` dead band keep a residual above `ε`. -/
theorem c3_transaction_count_bound (rows : List NetRow) :
    (simplifyDebts rows).length ≤ nonzeroNetCount rows - 1 := by
  simp only [simplifyDebts, nonzeroNetCount]
  have hcard := partition_card (computeNets rows)
  cases hC : sortDesc (creditorsOf (computeNets rows)) with
  | nil =>
    rw [greedyLoop_nil_left]
    simp
  | cons c cs' =>
    cases hD : sortDesc (debtorsOf (computeNets rows)) with
    | nil =>
      rw [greedyLoop_nil_right]
      simp
    | cons d ds' =>
      have hlen := greedyLoop_length_lt
        ((c :: cs').length + (d :: ds').length + 1) c cs' d ds'
      have hC' : (creditorsOf (computeNets rows)).length = cs'.length + 1 := by
        rw [← length_sortDesc, hC]; simp
      have hD' : (debtorsOf (computeNets rows)).length = ds'.length + 1 := by
        rw [← length_sortDesc, hD]; simp
      simp only [List.length_cons] at *
      omega

/-- Balance rows whose nets are `A: +0.02, B: -0.01, C: -0.01` — they sum to
zero, yet `B` and `C` fall inside the `ε` dead band, so no debtor enters the
greedy loop. -/
def c3rows : List NetRow :=
  [⟨"A", "B", 1/100⟩, ⟨"A", "C", 1/100⟩]

/-- C3 (counterexample to the claim as stated): on `c3rows` the nets sum to
zero, the simplifier outputs no transactions at all, and participant `A` is
left with a net of `0.02 > ε` — applying the output does not zero every net
within the tolerance. -/
theorem c3_counterexample :
    netTotal (computeNets c3rows) = 0 ∧
    simplifyDebts c3rows = [] ∧
    residualAfter c3rows "A" = 1/50 ∧
    ¬(residualAfter c3rows "A" ≤ 1/100) := by
  have hnets : computeNets c3rows =
      [("A", 1/50), ("B", -(1/100)), ("C", -(1/100))] := by
    simp [c3rows, computeNets, bump, List.foldl]
    norm_num
  have hcred : creditorsOf [("A", (1:ℚ)/50), ("B", -(1/100)), ("C", -(1/100))] =
      [("A", 1/50)] := by
    norm_num [creditorsOf]
  have hdebt : debtorsOf [("A", (1:ℚ)/50), ("B", -(1/100)), ("C", -(1/100))] =
      [] := by
    norm_num [debtorsOf]
  have hout : simplifyDebts c3rows = [] := by
    simp only [simplifyDebts, hnets, hcred, hdebt, sortDesc, insDesc, List.foldl]
    rw [greedyLoop_nil_right]
  have hres : residualAfter c3rows "A" = 1/50 := by
    simp [residualAfter, hout, hnets, netOf]
    norm_num
  refine ⟨?_, hout, hres, ?_⟩
  · rw [hnets]
    norm_num [netTotal]
  · rw [hres]
    norm_num

/-- Balance rows whose nets are `A: +0.32, B: -0.30, C: -0.01, D: -0.01`. -/
def c7rows : List NetRow :=
  [⟨"A", "B", 3/10⟩, ⟨"A", "C", 1/100⟩, ⟨"A", "D", 1/100⟩]

/-- C7 (counterexample to the claim as stated): the simplifier never signals
any error — on `c7rows` it silently returns the single transaction
`B → A, 0.30` even though that leaves `A` with a remaining balance of
`0.02 > ε`. -/
theorem c7_counterexample :
    simplifyDebts c7rows = [⟨"B", "A", 3/10⟩] ∧
    residualAfter c7rows "A" = 1/50 ∧
    ¬(residualAfter c7rows "A" ≤ 1/100) := by
  have hnets : computeNets c7rows =
      [("A", 8/25), ("B", -(3/10)), ("C", -(1/100)), ("D", -(1/100))] := by
    simp [c7rows, computeNets, bump, List.foldl]
    norm_num
  have hcred : creditorsOf
      [("A", (8:ℚ)/25), ("B", -(3/10)), ("C", -(1/100)), ("D", -(1/100))] =
      [("A", 8/25)] := by
    norm_num [creditorsOf]
  have hdebt : debtorsOf
      [("A", (8:ℚ)/25), ("B", -(3/10)), ("C", -(1/100)), ("D", -(1/100))] =
      [("B", 3/10)] := by
    norm_num [debtorsOf]
  have hsortC : sortDesc [("A", (8:ℚ)/25)] = [("A", 8/25)] := rfl
  have hsortD : sortDesc [("B", (3:ℚ)/10)] = [("B", 3/10)] := rfl
  have hout : simplifyDebts c7rows = [⟨"B", "A", 3/10⟩] := by
    simp only [simplifyDebts, hnets, hcred, hdebt, hsortC, hsortD,
      List.length_cons, List.length_nil]
    norm_num [greedyLoop, min_def, round2, greedyLoop_nil_right]
  have hres : residualAfter c7rows "A" = 1/50 := by
    simp [residualAfter, hout, hnets, netOf]
    norm_num
  refine ⟨hout, hres, ?_⟩
  rw [hres]
  norm_num

/-! ## The realtime hub (`SplitCostDurableObject`, `src/unnamed/part_001`)

One durable object per channel; its `sessions` field is a JS `Map` from user
id to session, embedded as an insertion-ordered association list (JS `Map`
iterates in insertion order, and `set` on an existing key overwrites the
value in place).  Sends are embedded as an emitted event list; the
`try { send } catch` failure path (which marks a session `quit`) is not
modelled — sends are taken to succeed, which is the behavior the claims
describe. -/

/-- A stored WebSocket session: the socket handle (as an id) and the `quit`
flag. -/
structure Sess where
  ws : ℕ
  quit : Bool
deriving DecidableEq

/-- The hub's `sessions` map in insertion order. -/
abbrev Hub := List (String × Sess)

/-- The messages the join path can emit. -/
inductive HMsg where
  | connected (roster : List String)
  | user_connected (uid : String)
  | user_disconnected (uid : String)
deriving DecidableEq

/-- One delivered frame: target socket and message. -/
structure Sent where
  target : ℕ
  msg : HMsg
deriving DecidableEq

/-- `Map.set`: overwrite in place if the key exists, else append. -/
def mapSet : Hub → String → Sess → Hub
  | [], u, v => [(u, v)]
  | (k, w) :: t, u, v =>
      if k = u then (k, v) :: t else (k, w) :: mapSet t u v

/-- `Map.get`. -/
def mapGet : Hub → String → Option Sess
  | [], _ => none
  | (k, w) :: t, u => if k = u then some w else mapGet t u

/-- `broadcast(message, excludeUserId?)` (part_001:186-200): walk the session
map in insertion order, skip the excluded user id and quit sessions, send to
everyone else. -/
def broadcastSends : Hub → HMsg → Option String → List Sent
  | [], _, _ => []
  | (k, w) :: t, m, excl =>
      if excl = some k then broadcastSends t m excl
      else if w.quit then broadcastSends t m excl
      else ⟨w.ws, m⟩ :: broadcastSends t m excl

/-- `sendToUser(userId, message)` (part_001:202-212): deliver to the one
mapped session if present and not quit, else do nothing. -/
def sendToUserSends (h : Hub) (u : String) (m : HMsg) : List Sent :=
  match mapGet h u with
  | none => []
  | some s => if s.quit then [] else [⟨s.ws, m⟩]

/-- `handleWebSocket` (part_001:58-129), the parts that touch the session map
and the wire: store the new session under the user id (replacing any previous
entry), broadcast `user_connected` to everyone else, then send the new socket
the `connected` welcome whose roster is the keys of the updated map.  The
broadcast comes *first* (lines 108-113), the welcome second (lines 116-123). -/
def handleWebSocket (h : Hub) (u : String) (sock : ℕ) : Hub × List Sent :=
  let h' := mapSet h u ⟨sock, false⟩
  (h', broadcastSends h' (.user_connected u) (some u) ++
       [⟨sock, .connected (h'.map Prod.fst)⟩])

/-- `true` on the `user_disconnected` message only. -/
def isDisconnectMsg : HMsg → Bool
  | .user_disconnected _ => true
  | _ => false

theorem mem_mapSet_elim (h : Hub) (u : String) (v : Sess) (p : String × Sess)
    (hnd : (h.map Prod.fst).Nodup) (hp : p ∈ mapSet h u v) :
    p = (u, v) ∨ (p ∈ h ∧ p.1 ≠ u) := by
  induction h with
  | nil =>
    simp [mapSet] at hp
    exact Or.inl hp
  | cons q t ih =>
    simp only [List.map_cons, List.nodup_cons] at hnd
    by_cases hk : q.1 = u
    · rw [show mapSet (q :: t) u v = (q.1, v) :: t by
        simp [mapSet, hk]] at hp
      rcases List.mem_cons.1 hp with h1 | h1
      · left; rw [h1, hk]
      · right
        refine ⟨List.mem_cons_of_mem q h1, ?_⟩
        intro hc
        apply hnd.1
        rw [hk, ← hc]
        exact List.mem_map_of_mem Prod.fst h1
    · rw [show mapSet (q :: t) u v = q :: mapSet t u v by
        simp [mapSet, hk]] at hp
      rcases List.mem_cons.1 hp with h1 | h1
      · right
        exact ⟨h1 ▸ List.mem_cons_self q t, h1 ▸ hk⟩
      · rcases ih hnd.2 h1 with h2 | h2
        · exact Or.inl h2
        · exact Or.inr ⟨List.mem_cons_of_mem q h2.1, h2.2⟩

theorem mem_broadcastSends_elim (h : Hub) (m : HMsg) (excl : Option String)
    (e : Sent) (he : e ∈ broadcastSends h m excl) :
    ∃ p : String × Sess, p ∈ h ∧ excl ≠ some p.1 ∧ p.2.quit = false ∧
      e = ⟨p.2.ws, m⟩ := by
  induction h with
  | nil => simp [broadcastSends] at he
  | cons q t ih =>
    by_cases h1 : excl = some q.1
    · rw [show broadcastSends (q :: t) m excl = broadcastSends t m excl by
        simp [broadcastSends, h1]] at he
      obtain ⟨p, hp, h2, h3, h4⟩ := ih he
      exact ⟨p, List.mem_cons_of_mem q hp, h2, h3, h4⟩
    · by_cases h2 : q.2.quit
      · rw [show broadcastSends (q :: t) m excl = broadcastSends t m excl by
          simp [broadcastSends, h1, h2]] at he
        obtain ⟨p, hp, h3, h4, h5⟩ := ih he
        exact ⟨p, List.mem_cons_of_mem q hp, h3, h4, h5⟩
      · rw [show broadcastSends (q :: t) m excl =
            ⟨q.2.ws, m⟩ :: broadcastSends t m excl by
          simp [broadcastSends, h1, h2]] at he
        rcases List.mem_cons.1 he with h3 | h3
        · exact ⟨q, List.mem_cons_self q t, h1, by simpa using h2, h3⟩
        · obtain ⟨p, hp, h4, h5, h6⟩ := ih h3
          exact ⟨p, List.mem_cons_of_mem q hp, h4, h5, h6⟩

theorem mapGet_mem (h : Hub) (u : String) (s : Sess) (hg : mapGet h u = some s) :
    (u, s) ∈ h := by
  induction h with
  | nil => simp [mapGet] at hg
  | cons q t ih =>
    by_cases hk : q.1 = u
    · rw [show mapGet (q :: t) u = some q.2 by simp [mapGet, hk]] at hg
      have : q = (u, s) := by
        rcases q with ⟨k, w⟩
        simp at hk
        simp at hg
        rw [hk, hg]
      exact this ▸ List.mem_cons_self q t
    · rw [show mapGet (q :: t) u = mapGet t u by simp [mapGet, hk]] at hg
      exact List.mem_cons_of_mem q (ih hg)

theorem mapSet_keys (h : Hub) (u : String) (v : Sess)
    (hmem : u ∈ h.map Prod.fst) :
    (mapSet h u v).map Prod.fst = h.map Prod.fst := by
  induction h with
  | nil => simp at hmem
  | cons q t ih =>
    by_cases hk : q.1 = u
    · rw [show mapSet (q :: t) u v = (q.1, v) :: t by simp [mapSet, hk]]
      simp
    · rw [show mapSet (q :: t) u v = q :: mapSet t u v by simp [mapSet, hk]]
      simp only [List.map_cons] at *
      rcases List.mem_cons.1 hmem with h1 | h1
      · exact absurd h1.symm hk
      · rw [ih h1]

theorem mapGet_mapSet_self (h : Hub) (u : String) (v : Sess) :
    mapGet (mapSet h u v) u = some v := by
  induction h with
  | nil => simp [mapSet, mapGet]
  | cons q t ih =>
    by_cases hk : q.1 = u
    · rw [show mapSet (q :: t) u v = (q.1, v) :: t by simp [mapSet, hk]]
      simp [mapGet, hk]
    · rw [show mapSet (q :: t) u v = q :: mapSet t u v by simp [mapSet, hk]]
      simp [mapGet, hk, ih]

/-- The concrete hub for the C8 scenario: one active session, user `u1` on
socket 1. -/
def c8hub : Hub := [("u1", ⟨1, false⟩)]

/-- C8 (counterexample to the claim as stated): when `u2` joins `c8hub` on
socket 2, the *first* emitted event is the `user_connected` broadcast to the
existing session's socket 1 — the hub does not send the new session its
`connected` event first; the welcome comes last. -/
theorem c8_counterexample :
    (handleWebSocket c8hub "u2" 2).2 =
      [⟨1, .user_connected "u2"⟩, ⟨2, .connected ["u1", "u2"]⟩] ∧
    (handleWebSocket c8hub "u2" 2).2.head? =
      some ⟨1, HMsg.user_connected "u2"⟩ := by decide

/-- C8 (amended).  On accepting a new session the hub *first* broadcasts
`user_connected` — delivered exactly to non-quit sessions of other users that
were already on the channel, never to the new socket — and *then*, as the
final event, sends the new session a `connected` event carrying the updated
roster (which includes the new user).  Hypotheses: map keys are unique (one
session per user) and the new socket id is fresh. -/
theorem c8_join_broadcast_order (h : Hub) (u : String) (sock : ℕ)
    (hnd : (h.map Prod.fst).Nodup)
    (hfresh : ∀ p : String × Sess, p ∈ h → p.2.ws ≠ sock) :
    ∃ pre, (handleWebSocket h u sock).2 =
        pre ++ [⟨sock, .connected ((mapSet h u ⟨sock, false⟩).map Prod.fst)⟩] ∧
      (∀ e ∈ pre, ∃ p : String × Sess, p ∈ h ∧ p.1 ≠ u ∧ p.2.quit = false ∧
          e = ⟨p.2.ws, .user_connected u⟩) ∧
      (∀ e ∈ pre, e.target ≠ sock) := by
  refine ⟨broadcastSends (mapSet h u ⟨sock, false⟩) (.user_connected u) (some u),
    rfl, ?_, ?_⟩
  · intro e he
    obtain ⟨p, hp, hexcl, hq, he'⟩ := mem_broadcastSends_elim _ _ _ e he
    rcases mem_mapSet_elim h u ⟨sock, false⟩ p hnd hp with h1 | h1
    · exact absurd (by rw [h1]) hexcl
    · exact ⟨p, h1.1, h1.2, hq, he'⟩
  · intro e he
    obtain ⟨p, hp, hexcl, hq, he'⟩ := mem_broadcastSends_elim _ _ _ e he
    rcases mem_mapSet_elim h u ⟨sock, false⟩ p hnd hp with h1 | h1
    · exact absurd (by rw [h1]) hexcl
    · rw [he']
      exact hfresh p h1.1

/-- Witness for the amended C8 in the Scenario-D setup: session 2 joins
`c8hub`; the last event is the `connected` welcome to socket 2 with roster
`[u1, u2]`, and no earlier event targets socket 2. -/
theorem c8_join_broadcast_order_witness :
    (handleWebSocket c8hub "u2" 2).2.getLast? =
      some ⟨2, HMsg.connected ["u1", "u2"]⟩ := by
  obtain ⟨pre, heq, -, -⟩ :=
    c8_join_broadcast_order c8hub "u2" 2 (by decide) (by decide)
  rw [heq]
  simp
  rfl

/-- Two active sessions for the C9 witness. -/
def c9hub : Hub := [("u1", ⟨1, false⟩), ("u2", ⟨2, false⟩)]

/-- C9.  The session map keys stay unique (at most one session per user);
when a user with an existing session joins again, the new session replaces
the map entry in place (same key set, `mapGet` now returns the new socket);
after the replacement no broadcast and no targeted send of the hub ever
delivers to the replaced socket; and the join path emits no
`user_disconnected` event for the replaced session.  Hypotheses: unique map
keys, the user's old session is in the map, the old socket id belongs to no
other session, and the new socket id differs from the old. -/
theorem c9_session_replacement (h : Hub) (u : String) (old : Sess) (sock : ℕ)
    (hnd : (h.map Prod.fst).Nodup)
    (hmem : (u, old) ∈ h)
    (huniq : ∀ p : String × Sess, p ∈ h → p.2.ws = old.ws → p = (u, old))
    (hsock : old.ws ≠ sock) :
    (((handleWebSocket h u sock).1.map Prod.fst).Nodup) ∧
    ((handleWebSocket h u sock).1.map Prod.fst = h.map Prod.fst) ∧
    (mapGet (handleWebSocket h u sock).1 u = some ⟨sock, false⟩) ∧
    (∀ (m : HMsg) (excl : Option String) (e : Sent),
        e ∈ broadcastSends (handleWebSocket h u sock).1 m excl →
        e.target ≠ old.ws) ∧
    (∀ (u' : String) (m : HMsg) (e : Sent),
        e ∈ sendToUserSends (handleWebSocket h u sock).1 u' m →
        e.target ≠ old.ws) ∧
    (∀ e ∈ (handleWebSocket h u sock).2, isDisconnectMsg e.msg = false) := by
  have hkeys : (handleWebSocket h u sock).1.map Prod.fst = h.map Prod.fst :=
    mapSet_keys h u ⟨sock, false⟩ (List.mem_map_of_mem Prod.fst hmem)
  have htarget : ∀ p : String × Sess, p ∈ (handleWebSocket h u sock).1 →
      p.2.ws ≠ old.ws := by
    intro p hp
    rcases mem_mapSet_elim h u ⟨sock, false⟩ p hnd hp with h1 | h1
    · rw [h1]
      exact fun hc => hsock hc.symm
    · intro hc
      exact h1.2 (congrArg Prod.fst (huniq p h1.1 hc))
  refine ⟨hkeys ▸ hnd, hkeys, mapGet_mapSet_self h u ⟨sock, false⟩, ?_, ?_, ?_⟩
  · intro m excl e he
    obtain ⟨p, hp, -, -, he'⟩ := mem_broadcastSends_elim _ _ _ e he
    rw [he']
    exact htarget p hp
  · intro u' m e he
    cases hg : mapGet (handleWebSocket h u sock).1 u' with
    | none =>
      unfold sendToUserSends at he
      rw [hg] at he
      simp at he
    | some s =>
      unfold sendToUserSends at he
      rw [hg] at he
      by_cases hq : s.quit
      · simp [hq] at he
      · simp [hq] at he
        rw [he]
        exact htarget (u', s) (mapGet_mem _ _ _ hg)
  · intro e he
    rcases List.mem_append.1 he with h1 | h1
    · obtain ⟨p, -, -, -, he'⟩ := mem_broadcastSends_elim _ _ _ e h1
      rw [he']
      rfl
    · rw [List.mem_singleton.1 h1]
      rfl

/-- Witness for C9: on `c9hub`, user `u1` (old socket 1) reconnects on socket
3: key set unchanged and unique, the map now returns the new session, a
concrete broadcast on the new hub delivers to socket 2 but not to the
replaced socket 1, and a concrete join event is not `user_disconnected`. -/
theorem c9_session_replacement_witness :
    ((handleWebSocket c9hub "u1" 3).1.map Prod.fst).Nodup ∧
    mapGet (handleWebSocket c9hub "u1" 3).1 "u1" = some ⟨3, false⟩ ∧
    (Sent.mk 2 (HMsg.user_connected "u1")).target ≠ 1 ∧
    isDisconnectMsg (Sent.mk 2 (HMsg.user_connected "u1")).msg = false := by
  have h := c9_session_replacement c9hub "u1" ⟨1, false⟩ 3
    (by decide) (by decide) (by decide) (by decide)
  refine ⟨h.1, h.2.2.1, ?_, ?_⟩
  · exact h.2.2.2.1 (HMsg.user_connected "u1") none ⟨2, HMsg.user_connected "u1"⟩
      (by decide)
  · exact h.2.2.2.2.2 ⟨2, HMsg.user_connected "u1"⟩ (by decide)

end CashFlowPro
